import Mathlib

/-!
# Verification of the crawlab-mcp tool synthesizer and orchestration loop

Shallow embedding of the OpenAPI-to-tool synthesizer
(`crawlab/mcp/utils/tools.py`, `utils.py`), the default-value computation of
the two server implementations (`crawlab/mcp/servers/server.py`, `server.py`),
the tag catalog (`list_tags`), and the client orchestration loop
(`crawlab/mcp/clients/client.py`).

Python dictionaries are modelled as insertion-ordered association lists with
update-in-place semantics; Python values flowing through the tool wrapper are
modelled by `PyValue`.  External collaborators (the HTTP client, the LLM
backend, `json.loads`) are passed in as function parameters.
-/

namespace CrawlabMCP

/-- A Python value as it flows through the synthesized tool wrapper:
strings, integers, booleans, lists, dicts (insertion-ordered) and `None`. -/
inductive PyValue where
  | str : String → PyValue
  | int : Int → PyValue
  | bool : Bool → PyValue
  | list : List PyValue → PyValue
  | dict : List (String × PyValue) → PyValue
  | none : PyValue

/-- Lookup in an insertion-ordered association list (Python `dict.get` /
`dict[key]` read). -/
def lookupA {α : Type} : List (String × α) → String → Option α
  | [], _ => Option.none
  | (k', v) :: rest, k => if k' = k then some v else lookupA rest k

/-- Python `dict[key] = value`: update in place if the key exists (keeping its
original position), otherwise append at the end. -/
def dictInsert {α : Type} (d : List (String × α)) (k : String) (v : α) :
    List (String × α) :=
  match d with
  | [] => [(k, v)]
  | (k', v') :: rest =>
      if k' = k then (k', v) :: rest else (k', v') :: dictInsert rest k v

/-- Python `d.update(d2)`: insert every entry of `d2` into `d` in order. -/
def dictUpdate {α : Type} (d d2 : List (String × α)) : List (String × α) :=
  d2.foldl (fun acc kv => dictInsert acc kv.1 kv.2) d

/-- `str(value)` as used when substituting a value into a path template.
(String escaping inside containers is not modelled; the verified claims only
substitute scalars.) -/
def pyStr : PyValue → String
  | .str s => s
  | .int n => toString n
  | .bool b => if b then "True" else "False"
  | .none => "None"
  | .list _ => "[...]"
  | .dict _ => "\x7b...\x7d"

/-- The `PYTHON_KEYWORDS` set from `utils.py` (the same set is imported from
`crawlab.mcp.utils.constants` by `crawlab/mcp/utils/tools.py`). -/
def PYTHON_KEYWORDS : List String :=
  ["False", "None", "True", "and", "as", "assert", "async", "await", "break",
   "class", "continue", "def", "del", "elif", "else", "except", "finally",
   "for", "from", "global", "if", "import", "in", "is", "lambda", "nonlocal",
   "not", "or", "pass", "raise", "return", "try", "while", "with", "yield"]

/-- Python `s.lstrip("_")`: drop every leading underscore. -/
def lstripUnderscore (s : String) : String :=
  ⟨s.data.dropWhile (· = '_')⟩

/-- Python `s.lstrip("/")` applied to the endpoint before the request. -/
def lstripSlash (s : String) : String :=
  ⟨s.data.dropWhile (· = '/')⟩

/-- Python `pat in s` (substring containment). -/
def strContains (s pat : String) : Bool :=
  decide (pat.data <:+: s.data)

/-- Python `s.startswith(pre)` (kernel-reducible variant of
`String.startsWith`). -/
def strStartsWith (s pre : String) : Bool :=
  pre.data.isPrefixOf s.data

/-- Python `s.lower()` (ASCII; kernel-reducible variant of
`String.toLower`). -/
def strToLower (s : String) : String :=
  ⟨s.data.map Char.toLower⟩

/-- Python `s.upper()` (ASCII; kernel-reducible variant of
`String.toUpper`). -/
def strToUpper (s : String) : String :=
  ⟨s.data.map Char.toUpper⟩

/-- Python `s.replace(pat, repl)` on character lists: replace every
non-overlapping occurrence, scanning left to right. -/
def replaceAllAux (pat repl : List Char) : List Char → List Char
  | [] => []
  | c :: cs =>
      if pat ≠ [] ∧ pat.isPrefixOf (c :: cs) then
        repl ++ replaceAllAux pat repl (List.drop (pat.length - 1) cs)
      else
        c :: replaceAllAux pat repl cs
termination_by l => l.length
decreasing_by
  · simp only [List.length_drop, List.length_cons]
    omega
  · simp [Nat.lt_succ_self]

/-- Python `s.replace(pat, repl)`. -/
def strReplaceAll (s pat repl : String) : String :=
  ⟨replaceAllAux pat.data repl.data s.data⟩

/-! ## Safe parameter names (`create_tool_function`, tools.py lines 25-55)

The collision loop `while safe_param_name in used_param_names` is embedded
with explicit fuel `used.length + 1`; the pigeonhole argument below
(`uniquifyGo_not_mem`) shows this fuel always suffices, so the embedding
computes exactly the first free suffixed name, as the Python loop does. -/

/-- One candidate name `f"{original_safe_name}_{suffix}"`. -/
def suffixed (base : String) (n : Nat) : String :=
  base ++ "_" ++ Nat.repr n

/-- The suffix-searching loop body: try `base_n`, `base_(n+1)`, … until a name
not in `used` is found. -/
def uniquifyGo (used : List String) (base : String) : Nat → Nat → String
  | 0, n => suffixed base n
  | fuel + 1, n =>
      if suffixed base n ∈ used then uniquifyGo used base fuel (n + 1)
      else suffixed base n

/-- The whole uniquification step of `create_tool_function`: keep `base` when
free, otherwise append the first free numeric suffix starting from 1. -/
def uniquify (used : List String) (base : String) : String :=
  if base ∈ used then uniquifyGo used base (used.length + 1) 1 else base

/-- The predicate of tools.py line 35: a parameter name is rewritten when it is
a Python keyword, literally `"id"`, or starts with an underscore. -/
def isRewritten (name : String) : Bool :=
  name ∈ PYTHON_KEYWORDS ∨ name = "id" ∨ strStartsWith name "_"

/-- One `param_dict` entry value: `(python type, default value or None,
description)`.  The Python type is kept as the OpenAPI type string. -/
structure ParamInfo where
  ptype : String
  default : Option PyValue
  descr : String

/-- The state built by the parameter-processing loop of
`create_tool_function`: required/optional signature entries (safe name first),
the safe-to-original name mapping, and the used-name set. -/
structure ProcState where
  required : List (String × String)
  optional : List (String × String × PyValue)
  mapping : List (String × String)
  used : List String

def ProcState.initial : ProcState := ⟨[], [], [], []⟩

/-- One iteration of the loop at tools.py lines 32-55. -/
def processParam (st : ProcState) (name : String) (info : ParamInfo) :
    ProcState :=
  let rewritten := isRewritten name
  let safe :=
    if rewritten then uniquify st.used ("param_" ++ lstripUnderscore name)
    else name
  let mapping :=
    if rewritten then dictInsert st.mapping safe name else st.mapping
  let used := st.used ++ [safe]
  match info.default with
  | Option.none =>
      { st with required := st.required ++ [(safe, info.ptype)],
                mapping := mapping, used := used }
  | some v =>
      { st with optional := st.optional ++ [(safe, info.ptype, v)],
                mapping := mapping, used := used }

/-- The whole parameter-processing loop over the (insertion-ordered)
`param_dict`. -/
def processParams (pd : List (String × ParamInfo)) : ProcState :=
  pd.foldl (fun st kv => processParam st kv.1 kv.2) ProcState.initial

/-- The safe names appearing in the synthesized call signature, required
parameters first, then optional ones — the order used both for positional
binding and for `wrapper.__signature__`. -/
def signatureNames (st : ProcState) : List String :=
  st.required.map Prod.fst ++ st.optional.map (fun t => t.1)

/-! ## The wrapper (`create_tool_function` → `wrapper`, tools.py lines 68-107) -/

/-- Positional-argument binding (tools.py lines 73-77): the i-th positional
argument is bound to the i-th required name, then to the following optional
names; surplus positional arguments are dropped. -/
def assignPositional (st : ProcState) (args : List PyValue) :
    List (String × PyValue) :=
  (args.enum).foldl
    (fun acc iv =>
      match st.required[iv.1]? with
      | some rp => dictInsert acc rp.1 iv.2
      | Option.none =>
          match st.optional[iv.1 - st.required.length]? with
          | some op => dictInsert acc op.1 iv.2
          | Option.none => acc)
    []

/-- `param_values`: positional arguments first, then
`param_values.update(kwargs)` (tools.py lines 70-80). -/
def mergeArgs (st : ProcState) (args : List PyValue)
    (kwargs : List (String × PyValue)) : List (String × PyValue) :=
  dictUpdate (assignPositional st args) kwargs

/-- One iteration of the routing loop (tools.py lines 88-99): resolve the
original wire name through `param_mapping`, substitute into the path if the
`{name}` placeholder occurs, otherwise route to query (GET/DELETE) or body. -/
def routeStep (method : String) (mapping : List (String × String))
    (acc : String × List (String × PyValue) × List (String × PyValue))
    (kv : String × PyValue) :
    String × List (String × PyValue) × List (String × PyValue) :=
  let origKey := (lookupA mapping kv.1).getD kv.1
  let placeholder := "\x7b" ++ origKey ++ "\x7d"
  if strContains acc.1 placeholder then
    (strReplaceAll acc.1 placeholder (pyStr kv.2), acc.2.1, acc.2.2)
  else if strToLower method ∈ ["get", "delete"] then
    (acc.1, dictInsert acc.2.1 origKey kv.2, acc.2.2)
  else
    (acc.1, acc.2.1, dictInsert acc.2.2 origKey kv.2)

/-- The full routing loop: starting endpoint is the path template, query and
body start empty. -/
def routeParams (method : String) (mapping : List (String × String))
    (path : String) (paramValues : List (String × PyValue)) :
    String × List (String × PyValue) × List (String × PyValue) :=
  paramValues.foldl (routeStep method mapping) (path, [], [])

/-! ## The downstream HTTP request (`api_request`, utils.py lines 7-23; the
same helper is imported from `crawlab.mcp.utils.http` by tools.py) -/

/-- The single downstream HTTP request issued by `api_request`:
`requests.request(method=method, url=url, headers=headers, json=data,
params=params)`. -/
structure HttpRequest where
  method : String
  url : String
  headers : List (String × String)
  jsonBody : Option (List (String × PyValue))
  queryParams : Option (List (String × PyValue))

/-- A downstream HTTP response: status code and decoded JSON object body. -/
structure HttpResponse where
  status : Nat
  json : List (String × PyValue)

/-- `api_request` (utils.py lines 7-23): build the URL from the base URL and
the endpoint, attach the bearer-token and JSON content-type headers, issue the
request, `raise_for_status()` (4xx/5xx raises), and return the decoded body.
The external HTTP client is the parameter `http`; the issued request is
returned alongside the outcome so that the request trace is observable. -/
def api_request (http : HttpRequest → HttpResponse)
    (baseUrl token method endpoint : String)
    (data params : Option (List (String × PyValue))) :
    HttpRequest × Except Nat (List (String × PyValue)) :=
  let req : HttpRequest :=
    { method := method
      url := baseUrl ++ "/" ++ endpoint
      headers := [("Authorization", "Bearer " ++ token),
                  ("Content-Type", "application/json")]
      jsonBody := data
      queryParams := params }
  let resp := http req
  (req,
    if 400 ≤ resp.status ∧ resp.status < 600 then .error resp.status
    else .ok resp.json)

/-- The outcome of one wrapper invocation: the list of downstream requests
issued during the call, and the value returned (or the status of the raised
`requests.HTTPError`). -/
structure InvokeRun where
  requests : List HttpRequest
  result : Except Nat PyValue

/-- A full invocation of the synthesized tool `wrapper` (tools.py lines
68-107): bind positional and keyword arguments, route every bound parameter
into path/query/body, issue the single `api_request`, and return
`response.get("data", {})`. -/
def invokeToolRun (http : HttpRequest → HttpResponse)
    (baseUrl token : String) (pd : List (String × ParamInfo))
    (method path : String) (args : List PyValue)
    (kwargs : List (String × PyValue)) : InvokeRun :=
  let st := processParams pd
  let routed := routeParams method st.mapping path (mergeArgs st args kwargs)
  let ra :=
    api_request http baseUrl token (strToUpper method) (lstripSlash routed.1)
      (if routed.2.2.isEmpty then Option.none else some routed.2.2)
      (if routed.2.1.isEmpty then Option.none else some routed.2.1)
  ⟨[ra.1],
    match ra.2 with
    | .error s => .error s
    | .ok json => .ok ((lookupA json "data").getD (.dict []))⟩

/-! ## Default values for optional parameters

Both server implementations inline the same shape of default computation when
building `param_dict`; they diverge on which types receive a default. -/

/-- Default-value synthesis of the main package server
(`crawlab/mcp/servers/server.py` lines 128-141 for path/query parameters and
lines 162-175 for body properties): every non-required parameter of a known
OpenAPI type receives a type-matching default. -/
def computeDefaultVal (required : Bool) (ptype : String) : Option PyValue :=
  if required then Option.none
  else if ptype = "string" then some (.str "")
  else if ptype = "array" then some (.list [])
  else if ptype = "object" then some (.dict [])
  else if ptype = "boolean" then some (.bool false)
  else if ptype = "integer" ∨ ptype = "number" then some (.int 0)
  else Option.none

/-- Default-value synthesis of the legacy root-level server (`server.py`
lines 99-108 and 130-138): only `string`, `array` and `object` optional
parameters receive a default; optional `integer`, `number` and `boolean`
parameters keep `None` and are therefore treated as required. -/
def computeDefaultValLegacy (required : Bool) (ptype : String) :
    Option PyValue :=
  if required then Option.none
  else if ptype = "string" then some (.str "")
  else if ptype = "array" then some (.list [])
  else if ptype = "object" then some (.dict [])
  else Option.none

/-- The type-matching default table of the specification: `""` for string,
`0` for integer and number, `false` for boolean, `[]` for array, `{}` for
object. -/
def specDefault (ptype : String) : Option PyValue :=
  if ptype = "string" then some (.str "")
  else if ptype = "integer" ∨ ptype = "number" then some (.int 0)
  else if ptype = "boolean" then some (.bool false)
  else if ptype = "array" then some (.list [])
  else if ptype = "object" then some (.dict [])
  else Option.none

/-! ## The tag catalog (`list_tags`, tools.py lines 136-192; the identical
logic is inlined in `server.py` lines 155-211) -/

/-- One operation of the dereferenced OpenAPI spec, as read by `list_tags`
and by the registration loop of `create_mcp_server`. -/
structure Operation where
  operationId : Option String
  tags : List String
  summary : String
  deriving DecidableEq

/-- The dereferenced spec as consumed by `list_tags`: top-level tag
declarations `(name, description)` and the path table
(path → ordered method → operation map). -/
structure ResolvedSpec where
  tags : List (String × String)
  paths : List (String × List (String × Operation))

/-- The HTTP methods accepted by the registration and listing loops. -/
def validMethods : List String := ["get", "post", "put", "delete", "patch"]

/-- A `tool_info` entry of the catalog. -/
structure ToolInfo where
  name : String
  method : String
  summary : String
  deriving DecidableEq

/-- One catalog bucket: `{"description": ..., "tools": [...]}`. -/
structure TagEntry where
  description : String
  tools : List ToolInfo
  deriving DecidableEq

/-- The spec's paths flattened to `(path, method, operation)` triples in
iteration order. -/
def flatOps (spec : ResolvedSpec) : List (String × String × Operation) :=
  spec.paths.flatMap (fun pi => pi.2.map (fun mo => (pi.1, mo.1, mo.2)))

/-- tools.py lines 143-145: initialize `tags_dict` from the top-level tag
declarations. -/
def initTagsFromSpec (ts : List (String × String)) :
    List (String × TagEntry) :=
  ts.foldl (fun d nd => dictInsert d nd.1 ⟨nd.2, []⟩) []

/-- Create a missing bucket for `tag` (tools.py lines 155-160). -/
def newTagStep (d : List (String × TagEntry)) (tag : String) :
    List (String × TagEntry) :=
  if (lookupA d tag).isSome then d
  else d ++ [(tag, ⟨"Operations tagged with " ++ tag, []⟩)]

/-- One operation's contribution to the bucket initialization. -/
def initStep (d : List (String × TagEntry))
    (pmo : String × String × Operation) : List (String × TagEntry) :=
  if strToLower pmo.2.1 ∈ validMethods then pmo.2.2.tags.foldl newTagStep d
  else d

/-- tools.py lines 148-160: when no top-level tags exist, initialize the
buckets from the tags declared by the (valid-method) operations. -/
def initTagsFromOps (spec : ResolvedSpec) : List (String × TagEntry) :=
  (flatOps spec).foldl initStep []

/-- Append one `tool_info` to the bucket of `tag`, when that bucket exists
(tools.py lines 180-182). -/
def appendTool (d : List (String × TagEntry)) (tag : String)
    (ti : ToolInfo) : List (String × TagEntry) :=
  d.map (fun e => if e.1 = tag then (e.1, ⟨e.2.description, e.2.tools ++ [ti]⟩)
                  else e)

/-- Append `ti` to the bucket of `tag` when it exists (tools.py lines
180-182). -/
def tagStep (ti : ToolInfo) (d : List (String × TagEntry)) (tag : String) :
    List (String × TagEntry) :=
  if (lookupA d tag).isSome then appendTool d tag ti else d

/-- One operation's contribution to the bucket population (tools.py lines
164-182). -/
def popStep (d : List (String × TagEntry))
    (pmo : String × String × Operation) : List (String × TagEntry) :=
  if strToLower pmo.2.1 ∈ validMethods then
    match pmo.2.2.operationId with
    | some oid =>
        pmo.2.2.tags.foldl (tagStep ⟨oid, strToUpper pmo.2.1, pmo.2.2.summary⟩) d
    | Option.none => d
  else d

/-- tools.py lines 163-182: populate the buckets with every valid-method
operation that has an `operationId`, once per declared tag present in the
dictionary. -/
def populateTools (d : List (String × TagEntry)) (spec : ResolvedSpec) :
    List (String × TagEntry) :=
  (flatOps spec).foldl popStep d

/-- The whole `list_tags` wrapper (tools.py lines 139-190), returning the
catalog as the ordered list of `(tag name, entry)` pairs (the Python code then
re-shapes this into `{"tags": [...]}`, keeping order and content). -/
def list_tags (spec : ResolvedSpec) : List (String × TagEntry) :=
  let d0 := initTagsFromSpec spec.tags
  let d1 := if d0.isEmpty then initTagsFromOps spec else d0
  populateTools d1 spec

/-- Whether one `(path, method, operation)` triple is registered as a tool by
the main package server, and under which name. -/
def regOp (pmo : String × String × Operation) : Option (String × Operation) :=
  if strToLower pmo.2.1 ∈ validMethods then
    match pmo.2.2.operationId with
    | some oid => some (oid, pmo.2.2)
    | Option.none => Option.none
  else Option.none

/-- The operations registered as tools by the main package server
(`crawlab/mcp/servers/server.py` lines 84-95): valid HTTP method and an
`operationId` present; the registered tool name is the `operationId`. -/
def registeredOps (spec : ResolvedSpec) : List (String × Operation) :=
  (flatOps spec).filterMap regOp

/-! ## The orchestration loop (`crawlab/mcp/clients/client.py`) -/

/-- One tool call requested by the model:
`{id, function: {name, arguments}}`. -/
structure LlmToolCall where
  id : String
  fname : String
  args : String

/-- A conversation message (the dict shapes appended by `process_query`). -/
inductive Message where
  | user (content : String)
  | assistant (content : Option String) (toolCalls : List LlmToolCall)
  | tool (toolCallId : String) (content : String)

/-- A tool definition offered to the model. -/
structure ToolDef where
  name : String
  description : String

/-- The triage/tool-selection step of `process_query` (client.py lines
214-242): `"Generic"` intent or a backend without tool support disables
tools; otherwise the intent is parsed as JSON and used to filter the tool
list; a parse failure (`json.JSONDecodeError`/`ValueError`) falls back to no
tools.  `parse` abstracts `json.loads` restricted to the consumed shape (a
JSON array of tool names); `none` is a parse failure. -/
def computeToolSelection (hasToolSupport : Bool)
    (parse : String → Option (List String)) (toolDefs : List ToolDef)
    (intent : String) : Option (List ToolDef) × String :=
  if intent = "Generic" ∨ hasToolSupport = false then (Option.none, "none")
  else
    match parse intent with
    | Option.none => (Option.none, "none")
    | some names =>
        (some (toolDefs.filter (fun t => t.name ∈ names)), "auto")

/-- The mutable state of the EXECUTING loop: the conversation messages and
the collected `final_text` fragments. -/
structure ExecState where
  messages : List Message
  finalText : List String

/-- One iteration of the tool-call loop of `process_query` (client.py lines
272-338).  `callTool` abstracts the whole `try` body up to the tool result
(argument JSON decoding plus `session.call_tool`); `followUp` abstracts the
follow-up `chat_completion`.  On success the assistant message carrying the
requested calls and a tool message carrying the result are appended and the
follow-up answer is collected; on failure an inline bracketed error
annotation is collected and a tool message `"Error: ..."` is appended. -/
def processToolCall (respContent : Option String) (respToolCalls : List LlmToolCall)
    (callTool : LlmToolCall → Except String String)
    (followUp : List Message → String) (st : ExecState) (tc : LlmToolCall) :
    ExecState :=
  match callTool tc with
  | .ok content =>
      let msgs := st.messages ++
        [.assistant respContent respToolCalls, .tool tc.id content]
      { messages := msgs
        finalText := st.finalText ++
          ["[Calling tool " ++ tc.fname ++ " with args " ++ tc.args ++ "]",
           followUp msgs] }
  | .error e =>
      { messages := st.messages ++ [.tool tc.id ("Error: " ++ e)]
        finalText := st.finalText ++
          ["[Error executing tool " ++ tc.fname ++ ": " ++ e ++ "]"] }

/-- The whole tool-call loop over the calls requested in one model turn. -/
def processToolCalls (respContent : Option String)
    (respToolCalls : List LlmToolCall)
    (callTool : LlmToolCall → Except String String)
    (followUp : List Message → String) (st : ExecState)
    (tcs : List LlmToolCall) : ExecState :=
  tcs.foldl (processToolCall respContent respToolCalls callTool followUp) st

/-- The digit list produced for `n` by `Nat.repr`. -/
def digitsOf (n : Nat) : List Char := Nat.toDigits 10 n

/-! ## Invariants of the parameter-processing loop -/

/-- The safe name chosen for one parameter in state `st`. -/
def chosenSafe (st : ProcState) (name : String) : String :=
  if isRewritten name then uniquify st.used ("param_" ++ lstripUnderscore name)
  else name

/-- The step function of the `param_dict` fold. -/
def procStep (st : ProcState) (kv : String × ParamInfo) : ProcState :=
  processParam st kv.1 kv.2

/-- Whitespace skipping for the concrete JSON-array parser. -/
def skipWs (cs : List Char) : List Char :=
  cs.dropWhile (fun c => c = ' ' ∨ c = '\n' ∨ c = '\t' ∨ c = '\r')

/-- Scan a JSON string literal body up to the closing quote (escapes not
modelled). -/
def strLitAux : List Char → List Char → Option (String × List Char)
  | [], _ => Option.none
  | c :: cs, acc =>
      if c = '"' then some (⟨acc.reverse⟩, cs) else strLitAux cs (c :: acc)

/-- Parse one JSON string literal. -/
def parseStringLit : List Char → Option (String × List Char)
  | '"' :: rest => strLitAux rest []
  | _ => Option.none

/-- Parse the comma-separated elements of a JSON array of strings. -/
def arrElems : Nat → List Char → Option (List String)
  | 0, _ => Option.none
  | fuel + 1, cs =>
      match parseStringLit (skipWs cs) with
      | Option.none => Option.none
      | some (s, rest) =>
          match skipWs rest with
          | ',' :: rest2 => (arrElems fuel rest2).map (fun l => s :: l)
          | ']' :: rest2 => if skipWs rest2 = [] then some [s] else Option.none
          | _ => Option.none

/-- A concrete stand-in for `json.loads` restricted to the shape the triage
prompt requests (a JSON array of tool names); `Option.none` is a parse
failure.  Used to instantiate the abstract parser in the witness. -/
def parseJsonStringArray (s : String) : Option (List String) :=
  match skipWs s.data with
  | '[' :: rest =>
      match skipWs rest with
      | ']' :: rest2 => if skipWs rest2 = [] then some [] else Option.none
      | _ => arrElems (rest.length + 1) rest
  | _ => Option.none

/-- One operation's total contribution to the bucket of `T`. -/
def opContrib (T : String) (pmo : String × String × Operation) :
    List ToolInfo :=
  match regOp pmo with
  | some (oid, op) =>
      List.replicate (op.tags.count T) ⟨oid, strToUpper pmo.2.1, op.summary⟩
  | Option.none => []

/-! ### Invariants of the initial tag dictionary -/

/-- The initial bucket dictionaries have pairwise-distinct keys and empty
tool lists. -/
def InitInv (d : List (String × TagEntry)) : Prop :=
  ((d.map Prod.fst).Nodup) ∧ ∀ kv ∈ d, kv.2.tools = []

/-! ## Theorems -/

/-! ## Decimal rendering is injective

`f"{original_safe_name}_{suffix}"` renders the suffix in decimal
(`Nat.repr` in this embedding); the collision loop's termination and
freshness argument needs distinct suffixes to yield distinct names. -/

theorem toDigitsCore_append (b : Nat) :
    ∀ (f n : Nat) (ds : List Char),
      Nat.toDigitsCore b f n ds = Nat.toDigitsCore b f n [] ++ ds := by
  intro f
  induction f with
  | zero => intro n ds; simp [Nat.toDigitsCore]
  | succ f ih =>
      intro n ds
      by_cases h : n / b = 0
      · simp [Nat.toDigitsCore, h]
      · simp only [Nat.toDigitsCore, if_neg h]
        rw [ih (n / b) (Nat.digitChar (n % b) :: ds),
            ih (n / b) [Nat.digitChar (n % b)]]
        simp

theorem toDigitsCore_fuel (b : Nat) (hb : 2 ≤ b) :
    ∀ (n f₁ f₂ : Nat) (ds : List Char), n < f₁ → n < f₂ →
      Nat.toDigitsCore b f₁ n ds = Nat.toDigitsCore b f₂ n ds := by
  intro n
  induction n using Nat.strong_induction_on with
  | _ n ih =>
    intro f₁ f₂ ds h₁ h₂
    match f₁, f₂ with
    | g₁ + 1, g₂ + 1 =>
      by_cases h : n / b = 0
      · simp [Nat.toDigitsCore, h]
      · have hn : 0 < n := by
          rcases Nat.eq_zero_or_pos n with h0 | h0
          · exact absurd (by simp [h0]) h
          · exact h0
        have hdiv : n / b < n := Nat.div_lt_self hn (by omega)
        simp only [Nat.toDigitsCore, if_neg h]
        exact ih (n / b) hdiv g₁ g₂ _ (by omega) (by omega)

theorem digitsOf_lt {n : Nat} (h : n < 10) :
    digitsOf n = [Nat.digitChar n] := by
  simp [digitsOf, Nat.toDigits, Nat.toDigitsCore, Nat.div_eq_of_lt h,
        Nat.mod_eq_of_lt h]

theorem digitsOf_ge {n : Nat} (h : 10 ≤ n) :
    digitsOf n = digitsOf (n / 10) ++ [Nat.digitChar (n % 10)] := by
  have h0 : ¬ n / 10 = 0 := by
    have : 0 < n / 10 := Nat.div_pos h (by norm_num)
    omega
  have hdiv : n / 10 < n := Nat.div_lt_self (by omega) (by norm_num)
  show Nat.toDigitsCore 10 (n + 1) n [] = _
  simp only [Nat.toDigitsCore, if_neg h0]
  rw [toDigitsCore_append 10 n (n / 10) [Nat.digitChar (n % 10)]]
  congr 1
  exact toDigitsCore_fuel 10 (by norm_num) (n / 10) n (n / 10 + 1) []
    hdiv (Nat.lt_succ_self _)

theorem digitsOf_ne_nil (n : Nat) : digitsOf n ≠ [] := by
  by_cases h : n < 10
  · simp [digitsOf_lt h]
  · rw [digitsOf_ge (Nat.le_of_not_lt h)]; simp

theorem digitChar_inj_fin :
    ∀ (i j : Fin 10), Nat.digitChar i.val = Nat.digitChar j.val → i = j := by
  decide

theorem digitChar_inj_of_lt {m n : Nat} (hm : m < 10) (hn : n < 10)
    (h : Nat.digitChar m = Nat.digitChar n) : m = n := by
  have := digitChar_inj_fin ⟨m, hm⟩ ⟨n, hn⟩ h
  exact congrArg Fin.val this

theorem digitsOf_inj : ∀ (m n : Nat), digitsOf m = digitsOf n → m = n := by
  intro m
  induction m using Nat.strong_induction_on with
  | _ m ih =>
    intro n h
    by_cases hm : m < 10 <;> by_cases hn : n < 10
    · rw [digitsOf_lt hm, digitsOf_lt hn] at h
      exact digitChar_inj_of_lt hm hn (by simpa using h)
    · rw [digitsOf_lt hm, digitsOf_ge (Nat.le_of_not_lt hn)] at h
      have hl := congrArg List.length h
      simp at hl
      exact absurd hl.symm (Ne.symm (digitsOf_ne_nil (n / 10)))
    · rw [digitsOf_ge (Nat.le_of_not_lt hm), digitsOf_lt hn] at h
      have hl := congrArg List.length h
      simp at hl
      exact absurd hl (digitsOf_ne_nil (m / 10))
    · rw [digitsOf_ge (Nat.le_of_not_lt hm), digitsOf_ge (Nat.le_of_not_lt hn)] at h
      obtain ⟨h1, h2⟩ := List.append_inj' h (by simp)
      have hdiv : m / 10 = n / 10 :=
        ih (m / 10) (Nat.div_lt_self (by omega) (by norm_num)) (n / 10) h1
      have hmod : m % 10 = n % 10 :=
        digitChar_inj_of_lt (Nat.mod_lt _ (by norm_num))
          (Nat.mod_lt _ (by norm_num)) (by simpa using h2)
      omega

theorem natRepr_inj {m n : Nat} (h : Nat.repr m = Nat.repr n) : m = n := by
  apply digitsOf_inj
  exact congrArg String.data h

theorem suffixed_inj (base : String) {m n : Nat}
    (h : suffixed base m = suffixed base n) : m = n := by
  apply natRepr_inj
  have hd := congrArg String.data h
  simp only [suffixed, String.data_append] at hd
  have h2 := List.append_cancel_left hd
  exact String.ext h2

/-! ## The collision loop finds the first free suffixed name -/

theorem uniquifyGo_shape (used : List String) (base : String) :
    ∀ (fuel n : Nat), ∃ m, n ≤ m ∧
      uniquifyGo used base fuel n = suffixed base m := by
  intro fuel
  induction fuel with
  | zero => intro n; exact ⟨n, Nat.le_refl n, rfl⟩
  | succ f ih =>
      intro n
      by_cases h : suffixed base n ∈ used
      · obtain ⟨m, hm, he⟩ := ih (n + 1)
        exact ⟨m, by omega, by simp [uniquifyGo, h, he]⟩
      · exact ⟨n, Nat.le_refl n, by simp [uniquifyGo, h]⟩

theorem uniquifyGo_mem_all (used : List String) (base : String) :
    ∀ (fuel n : Nat), uniquifyGo used base fuel n ∈ used →
      ∀ i, i < fuel → suffixed base (n + i) ∈ used := by
  intro fuel
  induction fuel with
  | zero => intro n _ i hi; omega
  | succ f ih =>
      intro n hres i hi
      by_cases h : suffixed base n ∈ used
      · match i with
        | 0 => simpa using h
        | j + 1 =>
            have := ih (n + 1) (by simpa [uniquifyGo, h] using hres) j (by omega)
            have harith : n + 1 + j = n + (j + 1) := by omega
            rwa [harith] at this
      · simp [uniquifyGo, h] at hres

theorem uniquify_not_mem (used : List String) (base : String) :
    uniquify used base ∉ used := by
  unfold uniquify
  by_cases hb : base ∈ used
  · simp only [if_pos hb]
    intro hres
    have hall := uniquifyGo_mem_all used base (used.length + 1) 1 hres
    have hnd : ((List.range (used.length + 1)).map
        (fun i => suffixed base (1 + i))).Nodup := by
      refine List.Nodup.map ?_ (List.nodup_range _)
      intro a b hab
      have := suffixed_inj base hab
      omega
    have hsub : ((List.range (used.length + 1)).map
        (fun i => suffixed base (1 + i))) ⊆ used := by
      intro x hx
      simp only [List.mem_map, List.mem_range] at hx
      obtain ⟨i, hi, rfl⟩ := hx
      simpa [Nat.add_comm] using hall i hi
    have hlen := (List.subperm_of_subset hnd hsub).length_le
    simp at hlen
  · simp only [if_neg hb]
    exact hb

theorem uniquify_shape (used : List String) (base : String) :
    uniquify used base = base ∨
      ∃ n, 1 ≤ n ∧ uniquify used base = suffixed base n := by
  unfold uniquify
  by_cases hb : base ∈ used
  · simp only [if_pos hb]
    obtain ⟨m, hm, he⟩ := uniquifyGo_shape used base (used.length + 1) 1
    exact Or.inr ⟨m, hm, he⟩
  · exact Or.inl (if_neg hb)

/-! ## Association-list dictionary lemmas -/

theorem lookupA_dictInsert_self {α : Type} (d : List (String × α)) (k : String)
    (v : α) : lookupA (dictInsert d k v) k = some v := by
  induction d with
  | nil => simp [dictInsert, lookupA]
  | cons kv rest ih =>
      by_cases h : kv.1 = k
      · simp [dictInsert, lookupA, h]
      · simpa [dictInsert, lookupA, h] using ih

theorem lookupA_dictInsert_ne {α : Type} (d : List (String × α))
    {k k' : String} (v : α) (h : k ≠ k') :
    lookupA (dictInsert d k v) k' = lookupA d k' := by
  induction d with
  | nil => simp [dictInsert, lookupA, h]
  | cons kv rest ih =>
      by_cases hk : kv.1 = k
      · simp [dictInsert, lookupA, hk, h]
      · simp only [dictInsert, if_neg hk]
        by_cases hk' : kv.1 = k'
        · simp [lookupA, hk']
        · simpa [lookupA, hk'] using ih

theorem lookupA_eq_none {α : Type} (d : List (String × α)) (k : String)
    (h : ∀ kv ∈ d, kv.1 ≠ k) : lookupA d k = Option.none := by
  induction d with
  | nil => rfl
  | cons kv rest ih =>
      simp only [lookupA, if_neg (h kv (by simp))]
      exact ih (fun kv' h' => h kv' (by simp [h']))

theorem lookupA_dictUpdate {α : Type} (d d2 : List (String × α)) (k : String)
    (hnd : (d2.map Prod.fst).Nodup) :
    lookupA (dictUpdate d d2) k =
      ((lookupA d2 k).rec (lookupA d k) (fun v => some v) : Option α) := by
  induction d2 generalizing d with
  | nil => simp [dictUpdate, lookupA]
  | cons kv rest ih =>
      have hnd' : (rest.map Prod.fst).Nodup := (List.nodup_cons.mp hnd).2
      have hnotin : kv.1 ∉ rest.map Prod.fst := (List.nodup_cons.mp hnd).1
      show lookupA (dictUpdate (dictInsert d kv.1 kv.2) rest) k = _
      rw [ih (dictInsert d kv.1 kv.2) hnd']
      by_cases h : kv.1 = k
      · subst h
        have hz : lookupA rest kv.1 = Option.none := by
          apply lookupA_eq_none
          intro kv' h' he
          exact hnotin (he ▸ List.mem_map_of_mem Prod.fst h')
        simp [lookupA, hz, lookupA_dictInsert_self]
      · simp [lookupA, h, lookupA_dictInsert_ne d kv.2 h]

theorem processParam_used (st : ProcState) (name : String) (info : ParamInfo) :
    (processParam st name info).used = st.used ++ [chosenSafe st name] := by
  cases h : info.default <;> simp [processParam, chosenSafe, h]

theorem processParam_mapping (st : ProcState) (name : String)
    (info : ParamInfo) :
    (processParam st name info).mapping =
      if isRewritten name then
        dictInsert st.mapping (chosenSafe st name) name
      else st.mapping := by
  cases h : info.default <;> by_cases hr : isRewritten name <;>
    simp [processParam, chosenSafe, h, hr]

theorem processParams_eq_foldl (pd : List (String × ParamInfo)) :
    processParams pd = pd.foldl procStep ProcState.initial := rfl

/-- A mapping binding whose key is already a used name survives the rest of
the parameter loop: every later safe name is chosen fresh with respect to the
growing used-name set. -/
theorem foldl_mapping_persist (pd : List (String × ParamInfo)) :
    ∀ (st : ProcState) (s p : String),
      lookupA st.mapping s = some p → s ∈ st.used →
      lookupA (pd.foldl procStep st).mapping s = some p ∧
        s ∈ (pd.foldl procStep st).used := by
  induction pd with
  | nil => intro st s p h1 h2; exact ⟨h1, h2⟩
  | cons kv rest ih =>
      intro st s p h1 h2
      apply ih (procStep st kv)
      · rw [procStep, processParam_mapping]
        by_cases hr : isRewritten kv.1
        · rw [if_pos hr]
          have hfresh : chosenSafe st kv.1 ≠ s := by
            intro he
            have hnm := uniquify_not_mem st.used ("param_" ++ lstripUnderscore kv.1)
            rw [chosenSafe, if_pos hr] at he
            exact hnm (he ▸ h2)
          rw [lookupA_dictInsert_ne _ _ hfresh]
          exact h1
        · rw [if_neg hr]; exact h1
      · rw [procStep, processParam_used]
        exact List.mem_append_left _ h2

/-- Every rewritten parameter ends with a binding `safe ↦ original` in the
final mapping, with the safe name of the documented shape. -/
theorem foldl_exists_binding (pd : List (String × ParamInfo)) :
    ∀ (st : ProcState) (p : String) (info : ParamInfo),
      (p, info) ∈ pd → isRewritten p = true →
      ∃ s, (s = "param_" ++ lstripUnderscore p ∨
            ∃ n, 1 ≤ n ∧ s = suffixed ("param_" ++ lstripUnderscore p) n) ∧
        lookupA (pd.foldl procStep st).mapping s = some p ∧
        s ∈ (pd.foldl procStep st).used := by
  induction pd with
  | nil => intro st p info hmem; exact absurd hmem (List.not_mem_nil _)
  | cons kv rest ih =>
      intro st p info hmem hrw
      rcases List.mem_cons.mp hmem with heq | htail
      · have hp : kv.1 = p := (congrArg Prod.fst heq).symm
        subst hp
        have hshape : chosenSafe st kv.1 = "param_" ++ lstripUnderscore kv.1 ∨
            ∃ n, 1 ≤ n ∧
              chosenSafe st kv.1 = suffixed ("param_" ++ lstripUnderscore kv.1) n := by
          rw [chosenSafe, if_pos hrw]
          exact uniquify_shape st.used ("param_" ++ lstripUnderscore kv.1)
        have hlook : lookupA (procStep st kv).mapping (chosenSafe st kv.1) =
            some kv.1 := by
          rw [procStep, processParam_mapping, if_pos hrw]
          exact lookupA_dictInsert_self st.mapping (chosenSafe st kv.1) kv.1
        have hused : chosenSafe st kv.1 ∈ (procStep st kv).used := by
          rw [procStep, processParam_used]
          simp
        obtain ⟨hl, hu⟩ := foldl_mapping_persist rest (procStep st kv)
          (chosenSafe st kv.1) kv.1 hlook hused
        exact ⟨chosenSafe st kv.1, hshape, hl, hu⟩
      · exact ih (procStep st kv) p info htail hrw

/-- Python keywords do not start with an underscore, so `lstrip("_")` leaves
them unchanged. -/
theorem lstrip_keywords :
    ∀ p ∈ PYTHON_KEYWORDS, lstripUnderscore p = p := by decide

theorem lstrip_id : lstripUnderscore "id" = "id" := by decide

theorem isRewritten_of_keyword {p : String}
    (hp : p ∈ PYTHON_KEYWORDS ∨ p = "id") : isRewritten p = true := by
  rcases hp with h | h <;> simp [isRewritten, h]

theorem natRepr_length_pos (n : Nat) : 0 < (Nat.repr n).length := by
  have h := digitsOf_ne_nil n
  have hd : (Nat.repr n).data = digitsOf n := rfl
  rw [String.length, hd]
  exact List.length_pos.mpr h

/-- A rewritten safe name is strictly longer than the original name, hence
distinct from it. -/
theorem safe_name_ne_original (p s : String)
    (hshape : s = "param_" ++ p ∨ ∃ n, 1 ≤ n ∧ s = suffixed ("param_" ++ p) n) :
    s ≠ p := by
  intro he
  have hlen : s.length = p.length := congrArg String.length he
  rcases hshape with h | ⟨n, _, h⟩
  · rw [h] at hlen
    simp [String.length_append] at hlen
    revert hlen
    decide
  · rw [h] at hlen
    have hr := natRepr_length_pos n
    simp [suffixed, String.length_append] at hlen
    omega

/-- Routing a single keyword argument: the original wire name resolved
through the mapping decides the placeholder, the query key and the body
key. -/
theorem routeParams_single (method : String) (mapping : List (String × String))
    (path s p : String) (v : PyValue) (h : lookupA mapping s = some p) :
    routeParams method mapping path [(s, v)] =
      if strContains path ("\x7b" ++ p ++ "\x7d") then
        (strReplaceAll path ("\x7b" ++ p ++ "\x7d") (pyStr v), [], [])
      else if strToLower method ∈ ["get", "delete"] then (path, [(p, v)], [])
      else (path, [], [(p, v)]) := by
  simp [routeParams, routeStep, h, dictInsert]

/-! ## Claim theorems for the synthesizer -/

/-- **C1 counterexample**: in the legacy root-level server (`server.py` lines
99-108), an optional `integer` parameter receives no default at all (so it is
treated as required), instead of the type-matching default `0` the claim
states; the same holds for `number` and `boolean`. -/
theorem c1_counterexample :
    computeDefaultValLegacy false "integer" = Option.none ∧
    computeDefaultValLegacy false "boolean" = Option.none ∧
    specDefault "integer" = some (.int 0) ∧
    specDefault "boolean" = some (.bool false) := by
  refine ⟨rfl, rfl, rfl, rfl⟩

/-- **C1 (amended)**: the main package server
(`crawlab/mcp/servers/server.py` lines 128-141 and 162-175) assigns every
optional parameter of a declared OpenAPI type its type-matching default; the
legacy root-level `server.py` does so only for `string`/`array`/`object` and
leaves optional `integer`/`number`/`boolean` parameters without a default. -/
theorem c1_optional_param_defaults (t : String)
    (ht : t ∈ ["string", "integer", "number", "boolean", "array", "object"]) :
    computeDefaultVal false t = specDefault t ∧
    (computeDefaultVal false t).isSome ∧
    (t ∈ ["string", "array", "object"] →
      computeDefaultValLegacy false t = specDefault t) ∧
    (t ∈ ["integer", "number", "boolean"] →
      computeDefaultValLegacy false t = Option.none) := by
  fin_cases ht <;>
    simp [computeDefaultVal, computeDefaultValLegacy, specDefault]

/-- Witness for the amended C1 at the concrete type `"integer"`. -/
theorem c1_optional_param_defaults_witness :
    computeDefaultVal false "integer" = specDefault "integer" ∧
    (computeDefaultVal false "integer").isSome ∧
    ("integer" ∈ ["string", "array", "object"] →
      computeDefaultValLegacy false "integer" = specDefault "integer") ∧
    ("integer" ∈ ["integer", "number", "boolean"] →
      computeDefaultValLegacy false "integer" = Option.none) :=
  c1_optional_param_defaults "integer" (by simp)

/-- **C2**: a parameter whose name is a Python keyword or literally `"id"`
is rewritten to the safe name `param_<name>` (or `param_<name>_<n>`, `n ≥ 1`,
on further collision within the same tool); the safe name differs from the
wire name, the synthesized mapping sends it back to the original name, and an
invocation passing the safe name routes the value into the path, the query or
the body under the *original* wire name. -/
theorem c2_keyword_param_safe_name_and_wire_name
    (pd : List (String × ParamInfo)) (p : String) (info : ParamInfo)
    (hp : p ∈ PYTHON_KEYWORDS ∨ p = "id") (hmem : (p, info) ∈ pd) :
    ∃ s, (s = "param_" ++ p ∨
          ∃ n, 1 ≤ n ∧ s = "param_" ++ p ++ "_" ++ Nat.repr n) ∧
      s ≠ p ∧
      lookupA (processParams pd).mapping s = some p ∧
      ∀ (v : PyValue) (method path : String),
        routeParams method (processParams pd).mapping path [(s, v)] =
          if strContains path ("\x7b" ++ p ++ "\x7d") then
            (strReplaceAll path ("\x7b" ++ p ++ "\x7d") (pyStr v), [], [])
          else if strToLower method ∈ ["get", "delete"] then (path, [(p, v)], [])
          else (path, [], [(p, v)]) := by
  have hlp : lstripUnderscore p = p := by
    rcases hp with h | h
    · exact lstrip_keywords p h
    · rw [h]; exact lstrip_id
  obtain ⟨s, hshape, hlook, _⟩ := foldl_exists_binding pd ProcState.initial p
    info hmem (isRewritten_of_keyword hp)
  rw [hlp] at hshape
  have hshape' : s = "param_" ++ p ∨
      ∃ n, 1 ≤ n ∧ s = "param_" ++ p ++ "_" ++ Nat.repr n := by
    rcases hshape with h | ⟨n, hn, h⟩
    · exact Or.inl h
    · exact Or.inr ⟨n, hn, h⟩
  refine ⟨s, hshape', safe_name_ne_original p s ?_, hlook, ?_⟩
  · rcases hshape' with h | ⟨n, hn, h⟩
    · exact Or.inl h
    · exact Or.inr ⟨n, hn, h⟩
  · intro v method path
    exact routeParams_single method _ path s p v hlook

/-- Witness for C2: the keyword parameter `"if"` in a one-parameter tool. -/
theorem c2_keyword_param_safe_name_and_wire_name_witness :
    ∃ s, (s = "param_" ++ "if" ∨
          ∃ n, 1 ≤ n ∧ s = "param_" ++ "if" ++ "_" ++ Nat.repr n) ∧
      s ≠ "if" ∧
      lookupA (processParams [("if", ⟨"string", Option.none, ""⟩)]).mapping s =
        some "if" ∧
      ∀ (v : PyValue) (method path : String),
        routeParams method
            (processParams [("if", ⟨"string", Option.none, ""⟩)]).mapping path
            [(s, v)] =
          if strContains path ("\x7b" ++ "if" ++ "\x7d") then
            (strReplaceAll path ("\x7b" ++ "if" ++ "\x7d") (pyStr v), [], [])
          else if strToLower method ∈ ["get", "delete"] then
            (path, [("if", v)], [])
          else (path, [], [("if", v)]) :=
  c2_keyword_param_safe_name_and_wire_name
    [("if", ⟨"string", Option.none, ""⟩)] "if" ⟨"string", Option.none, ""⟩
    (Or.inl (by decide)) (by simp)

/-- **C9**: the used-name set is consulted only for *rewritten* names, so a
parameter literally named `param_if` that follows a keyword parameter `if`
(rewritten to `param_if`) receives the same safe name: the synthesized call
signature contains a duplicate, contradicting the documented uniqueness
guarantee (Python's `Signature.replace` then rejects the duplicate names at
tool-creation time). -/
theorem c9_duplicate_safe_names_on_literal_param_if :
    signatureNames (processParams
        [("if", ⟨"string", Option.none, ""⟩),
         ("param_if", ⟨"string", Option.none, ""⟩)]) =
      ["param_if", "param_if"] ∧
    ¬ (signatureNames (processParams
        [("if", ⟨"string", Option.none, ""⟩),
         ("param_if", ⟨"string", Option.none, ""⟩)])).Nodup := by
  refine ⟨by decide, by decide⟩

/-! ## Claim theorems for the wrapper's request construction -/

theorem strContains_append_right (a b pat : String)
    (h : strContains b pat = true) : strContains (a ++ b) pat = true := by
  unfold strContains at h ⊢
  rw [decide_eq_true_iff] at h ⊢
  rw [String.data_append]
  exact h.trans (List.suffix_append a.data b.data).isInfix

/-- **C3 counterexample**: invoking the `get_spider` tool
(`GET /spiders/\x7bspider_id\x7d`) with no arguments leaves the `\x7bspider_id\x7d`
placeholder in the path, yet the wrapper issues its downstream request
anyway: there is no unresolved-placeholder check and no
`UnresolvedPathParameterError` exists anywhere in the source, contradicting
the claim that such an invocation fails before any network call. -/
theorem c3_counterexample :
    (invokeToolRun (fun _ => ⟨200, []⟩) "http://localhost:8080/api" "token"
        [("spider_id", ⟨"string", Option.none, ""⟩)] "GET"
        "/spiders/\x7bspider_id\x7d" [] []).requests.map (fun r => r.url) =
      ["http://localhost:8080/api/spiders/\x7bspider_id\x7d"] ∧
    strContains "http://localhost:8080/api/spiders/\x7bspider_id\x7d" "\x7bspider_id\x7d"
      = true := by
  refine ⟨rfl, by decide⟩

/-- **C3 (amended)**: the wrapper performs no unresolved-placeholder check:
every invocation issues exactly one downstream request whose path is exactly
the (left-stripped) substitution result, and when a `{…}` placeholder
survives substitution it is sent verbatim inside the request URL. -/
theorem c3_no_placeholder_check (http : HttpRequest → HttpResponse)
    (baseUrl token : String) (pd : List (String × ParamInfo))
    (method path : String) (args : List PyValue)
    (kwargs : List (String × PyValue)) :
    (invokeToolRun http baseUrl token pd method path args kwargs).requests.map
        (fun r => r.url) =
      [baseUrl ++ "/" ++ lstripSlash
        (routeParams method (processParams pd).mapping path
          (mergeArgs (processParams pd) args kwargs)).1] ∧
    (strContains (lstripSlash
        (routeParams method (processParams pd).mapping path
          (mergeArgs (processParams pd) args kwargs)).1) "\x7b" = true →
      ∀ r ∈ (invokeToolRun http baseUrl token pd method path args
          kwargs).requests, strContains r.url "\x7b" = true) := by
  have hreq : (invokeToolRun http baseUrl token pd method path args
      kwargs).requests.map (fun r => r.url) =
      [baseUrl ++ "/" ++ lstripSlash
        (routeParams method (processParams pd).mapping path
          (mergeArgs (processParams pd) args kwargs)).1] := rfl
  refine ⟨hreq, ?_⟩
  intro hph r hr
  have hmem : r.url ∈ (invokeToolRun http baseUrl token pd method path args
      kwargs).requests.map (fun r => r.url) :=
    List.mem_map_of_mem _ hr
  rw [hreq] at hmem
  simp only [List.mem_singleton] at hmem
  rw [hmem]
  exact strContains_append_right (baseUrl ++ "/") _ _ hph

/-- Witness for the amended C3 at the concrete no-argument `get_spider`
invocation, where the placeholder provably survives. -/
theorem c3_no_placeholder_check_witness :
    strContains (lstripSlash
      (routeParams "GET"
        (processParams [("spider_id", ⟨"string", Option.none, ""⟩)]).mapping
        "/spiders/\x7bspider_id\x7d"
        (mergeArgs (processParams [("spider_id", ⟨"string", Option.none, ""⟩)])
          [] [])).1) "\x7b" = true ∧
    ∀ r ∈ (invokeToolRun (fun _ => ⟨200, []⟩) "http://localhost:8080/api"
        "token" [("spider_id", ⟨"string", Option.none, ""⟩)] "GET"
        "/spiders/\x7bspider_id\x7d" [] []).requests,
      strContains r.url "\x7b" = true := by
  refine ⟨by decide, ?_⟩
  exact (c3_no_placeholder_check (fun _ => ⟨200, []⟩) "http://localhost:8080/api"
    "token" [("spider_id", ⟨"string", Option.none, ""⟩)] "GET"
    "/spiders/\x7bspider_id\x7d" [] []).2 (by decide)

/-- **C4 counterexample**: for the Scenario-B operation (`POST` with required
body property `name` and optional `description` whose synthesized default is
`""`), invoking the wrapper with only `name="x"` produces the body
`{"name": "x"}` — the omitted optional parameter's default is *not* merged
into the body (the default lives only in the advertised
`wrapper.__signature__`; `wrapper(*args, **kwargs)` itself never applies
it). -/
theorem c4_counterexample :
    (invokeToolRun (fun _ => ⟨200, []⟩) "base" "tok"
        [("name", ⟨"string", Option.none, ""⟩),
         ("description", ⟨"string", some (.str ""), ""⟩)] "POST" "/projects"
        [] [("name", .str "x")]).requests.map (fun r => r.jsonBody) =
      [some [("name", PyValue.str "x")]] ∧
    (some [("name", PyValue.str "x")] : Option (List (String × PyValue))) ≠
      some [("name", PyValue.str "x"), ("description", PyValue.str "")] := by
  refine ⟨rfl, by simp⟩

/-- **C4 (amended)**: the Scenario-B body contains the optional default only
when the `description` argument is explicitly passed (as a caller applying
the synthesized signature's defaults would): with only `name="x"` the body is
`{"name": "x"}`; with `name="x", description=""` it is
`{"name": "x", "description": ""}`. -/
theorem c4_body_merge_requires_explicit_argument :
    (invokeToolRun (fun _ => ⟨200, []⟩) "base" "tok"
        [("name", ⟨"string", Option.none, ""⟩),
         ("description", ⟨"string", some (.str ""), ""⟩)] "POST" "/projects"
        [] [("name", .str "x")]).requests.map (fun r => r.jsonBody) =
      [some [("name", PyValue.str "x")]] ∧
    (invokeToolRun (fun _ => ⟨200, []⟩) "base" "tok"
        [("name", ⟨"string", Option.none, ""⟩),
         ("description", ⟨"string", some (.str ""), ""⟩)] "POST" "/projects"
        [] [("name", .str "x"), ("description", .str "")]).requests.map
        (fun r => r.jsonBody) =
      [some [("name", PyValue.str "x"), ("description", PyValue.str "")]] := by
  refine ⟨rfl, rfl⟩

/-- Reducing the wrapper's outcome match over the `raise_for_status`
conditional. -/
theorem match_ite_except {c : Prop} [Decidable c] (a : Nat)
    (b : List (String × PyValue)) (f : List (String × PyValue) → PyValue) :
    (match (if c then (Except.error a : Except Nat (List (String × PyValue)))
            else .ok b) with
     | .error s => (Except.error s : Except Nat PyValue)
     | .ok json => .ok (f json)) =
      if c then .error a else .ok (f b) := by
  by_cases hc : c <;> simp [hc]

/-- **C8 (amended)**: every invocation issues exactly one downstream HTTP
request, with the upper-cased method, the base URL joined to the substituted
(left-stripped) path, the bearer-token and JSON content-type headers, and the
routed query/body (empty collections travel as `None`); on a non-error status
it returns the decoded `data` field of the JSON response and, when no `data`
field exists, an **empty object** (not the raw decoded body); a 4xx/5xx
status raises instead. -/
theorem c8_single_request_shape (http : HttpRequest → HttpResponse)
    (baseUrl token : String) (pd : List (String × ParamInfo))
    (method path : String) (args : List PyValue)
    (kwargs : List (String × PyValue)) :
    ∃ req, (invokeToolRun http baseUrl token pd method path args
        kwargs).requests = [req] ∧
      req.method = strToUpper method ∧
      req.url = baseUrl ++ "/" ++ lstripSlash
        (routeParams method (processParams pd).mapping path
          (mergeArgs (processParams pd) args kwargs)).1 ∧
      req.headers = [("Authorization", "Bearer " ++ token),
                     ("Content-Type", "application/json")] ∧
      req.queryParams = (if (routeParams method (processParams pd).mapping path
          (mergeArgs (processParams pd) args kwargs)).2.1.isEmpty then
            Option.none
          else some (routeParams method (processParams pd).mapping path
            (mergeArgs (processParams pd) args kwargs)).2.1) ∧
      req.jsonBody = (if (routeParams method (processParams pd).mapping path
          (mergeArgs (processParams pd) args kwargs)).2.2.isEmpty then
            Option.none
          else some (routeParams method (processParams pd).mapping path
            (mergeArgs (processParams pd) args kwargs)).2.2) ∧
      (invokeToolRun http baseUrl token pd method path args kwargs).result =
        (if 400 ≤ (http req).status ∧ (http req).status < 600 then
          .error (http req).status
        else .ok ((lookupA (http req).json "data").getD (.dict []))) := by
  refine ⟨_, rfl, rfl, rfl, rfl, rfl, rfl, ?_⟩
  exact match_ite_except _ _ _

/-- **C8 counterexample**: when the response JSON has no `data` field (for
example `{"foo": 1}`), the wrapper returns the empty object `{}`
(`response.get("data", {})`), not the raw decoded body the claim
describes. -/
theorem c8_counterexample :
    (invokeToolRun (fun _ => ⟨200, [("foo", PyValue.int 1)]⟩) "base" "tok"
        [] "GET" "/ping" [] []).result = .ok (PyValue.dict []) ∧
    (Except.ok (PyValue.dict []) : Except Nat PyValue) ≠
      .ok (.dict [("foo", PyValue.int 1)]) := by
  refine ⟨rfl, by simp⟩

/-! ## Unknown keyword arguments (claim C10) -/

/-- A key of `dictInsert d k v` is `k` or a key of `d`. -/
theorem dictInsert_keys_sub {α : Type} (d : List (String × α)) (k : String)
    (v : α) : ∀ kv ∈ dictInsert d k v, kv.1 = k ∨ kv.1 ∈ d.map Prod.fst := by
  induction d with
  | nil => simp [dictInsert]
  | cons kv0 rest ih =>
      intro kv hkv
      by_cases h : kv0.1 = k
      · simp only [dictInsert, if_pos h] at hkv
        rcases List.mem_cons.mp hkv with h1 | h1
        · left; rw [h1]; exact h
        · right
          exact List.mem_cons_of_mem _ (List.mem_map_of_mem Prod.fst h1)
      · simp only [dictInsert, if_neg h] at hkv
        rcases List.mem_cons.mp hkv with h1 | h1
        · right; rw [h1]; exact List.mem_cons_self _ _
        · rcases ih kv h1 with h2 | h2
          · exact Or.inl h2
          · exact Or.inr (List.mem_cons_of_mem _ h2)

theorem mem_signatureNames_processParam (st : ProcState) (name : String)
    (info : ParamInfo) (x : String) :
    x ∈ signatureNames (processParam st name info) ↔
      x = chosenSafe st name ∨ x ∈ signatureNames st := by
  cases h : info.default <;>
  · simp only [signatureNames, processParam, chosenSafe, h, List.map_append,
      List.mem_append, List.map_cons, List.map_nil, List.mem_singleton,
      List.mem_cons, List.not_mem_nil, or_false]
    tauto

/-- Every key of the synthesized name mapping is one of the call signature's
safe names. -/
theorem foldl_mapping_keys_sub (pd : List (String × ParamInfo)) :
    ∀ st : ProcState, (∀ kv ∈ st.mapping, kv.1 ∈ signatureNames st) →
      ∀ kv ∈ (pd.foldl procStep st).mapping,
        kv.1 ∈ signatureNames (pd.foldl procStep st) := by
  induction pd with
  | nil => intro st h; exact h
  | cons e rest ih =>
      intro st h
      apply ih
      intro kv hkv
      rw [procStep, processParam_mapping] at hkv
      rw [procStep, mem_signatureNames_processParam]
      by_cases hr : isRewritten e.1
      · rw [if_pos hr] at hkv
        rcases dictInsert_keys_sub st.mapping (chosenSafe st e.1) e.1 kv hkv
          with h1 | h1
        · exact Or.inl h1
        · obtain ⟨kv', hkv', he⟩ := List.mem_map.mp h1
          exact Or.inr (he ▸ h kv' hkv')
      · rw [if_neg hr] at hkv
        exact Or.inr (h kv hkv)

/-- Routing a single keyword argument that the mapping does not rename. -/
theorem routeParams_single_unmapped (method : String)
    (mapping : List (String × String)) (path k : String) (v : PyValue)
    (h : lookupA mapping k = Option.none) :
    routeParams method mapping path [(k, v)] =
      if strContains path ("\x7b" ++ k ++ "\x7d") then
        (strReplaceAll path ("\x7b" ++ k ++ "\x7d") (pyStr v), [], [])
      else if strToLower method ∈ ["get", "delete"] then (path, [(k, v)], [])
      else (path, [], [(k, v)]) := by
  simp [routeParams, routeStep, h, dictInsert]

/-- **C10**: passing a keyword argument whose name is not in the synthesized
signature never raises — the invocation still issues its single downstream
request; the unknown name is not renamed by the mapping, so invoking the tool
with it alone routes the value under that very name into the path (when a
matching placeholder exists), the query (GET/DELETE) or the body (other
methods); and for *every* name — signature names bound by positional
arguments included — a keyword argument overrides the positional binding
(`param_values.update(kwargs)`), while an absent keyword leaves the
positional binding in place. -/
theorem c10_unknown_kwarg_routed_and_overrides
    (pd : List (String × ParamInfo)) (k : String)
    (hk : k ∉ signatureNames (processParams pd)) :
    lookupA (processParams pd).mapping k = Option.none ∧
    (∀ (v : PyValue) (method path : String),
      routeParams method (processParams pd).mapping path [(k, v)] =
        if strContains path ("\x7b" ++ k ++ "\x7d") then
          (strReplaceAll path ("\x7b" ++ k ++ "\x7d") (pyStr v), [], [])
        else if strToLower method ∈ ["get", "delete"] then (path, [(k, v)], [])
        else (path, [], [(k, v)])) ∧
    (∀ (http : HttpRequest → HttpResponse) (baseUrl token method path : String)
        (args : List PyValue) (kwargs : List (String × PyValue)),
      (invokeToolRun http baseUrl token pd method path args
        kwargs).requests.length = 1) ∧
    (∀ (args : List PyValue) (kwargs : List (String × PyValue)) (k' : String),
      (kwargs.map Prod.fst).Nodup →
      (∀ v : PyValue, lookupA kwargs k' = some v →
        lookupA (mergeArgs (processParams pd) args kwargs) k' = some v) ∧
      (lookupA kwargs k' = Option.none →
        lookupA (mergeArgs (processParams pd) args kwargs) k' =
          lookupA (assignPositional (processParams pd) args) k')) := by
  have hnone : lookupA (processParams pd).mapping k = Option.none := by
    apply lookupA_eq_none
    intro kv hkv he
    have hin := foldl_mapping_keys_sub pd ProcState.initial
      (by intro kv h; simp [ProcState.initial] at h) kv hkv
    rw [processParams_eq_foldl] at hk
    exact hk (he ▸ hin)
  refine ⟨hnone, ?_, ?_, ?_⟩
  · intro v method path
    exact routeParams_single_unmapped method _ path k v hnone
  · intro http baseUrl token method path args kwargs
    rfl
  · intro args kwargs k' hnd
    constructor
    · intro v hlk
      rw [mergeArgs, lookupA_dictUpdate _ _ _ hnd, hlk]
    · intro hlk
      rw [mergeArgs, lookupA_dictUpdate _ _ _ hnd, hlk]

/-- Witness for C10: the unknown keyword `"foo"` against a one-parameter
tool whose required parameter `"name"` is bound positionally to `"pos"`; the
keyword argument `name="kw"` overrides that positional binding in the merged
`param_values`. -/
theorem c10_unknown_kwarg_routed_and_overrides_witness :
    lookupA (processParams [("name", ⟨"string", Option.none, ""⟩)]).mapping
        "foo" = Option.none ∧
    (∀ (v : PyValue) (method path : String),
      routeParams method
          (processParams [("name", ⟨"string", Option.none, ""⟩)]).mapping path
          [("foo", v)] =
        if strContains path ("\x7b" ++ "foo" ++ "\x7d") then
          (strReplaceAll path ("\x7b" ++ "foo" ++ "\x7d") (pyStr v), [], [])
        else if strToLower method ∈ ["get", "delete"] then
          (path, [("foo", v)], [])
        else (path, [], [("foo", v)])) ∧
    (∀ (http : HttpRequest → HttpResponse) (baseUrl token method path : String)
        (args : List PyValue) (kwargs : List (String × PyValue)),
      (invokeToolRun http baseUrl token
        [("name", ⟨"string", Option.none, ""⟩)] method path args
        kwargs).requests.length = 1) ∧
    lookupA (assignPositional (processParams
        [("name", ⟨"string", Option.none, ""⟩)]) [PyValue.str "pos"]) "name" =
      some (PyValue.str "pos") ∧
    lookupA (mergeArgs (processParams [("name", ⟨"string", Option.none, ""⟩)])
        [PyValue.str "pos"] [("name", PyValue.str "kw")]) "name" =
      some (PyValue.str "kw") :=
  have h := c10_unknown_kwarg_routed_and_overrides
    [("name", ⟨"string", Option.none, ""⟩)] "foo" (by decide)
  ⟨h.1, h.2.1, h.2.2.1, rfl,
   (h.2.2.2 [PyValue.str "pos"] [("name", PyValue.str "kw")] "name"
     (by decide)).1 (PyValue.str "kw") rfl⟩

/-! ## Claim theorems for the orchestration loop -/

/-- **C6**: whenever the stripped triage response is the literal `"Generic"`
or fails to parse as JSON, the orchestration loop issues the subsequent
completion call with `tools=None` and `tool_choice="none"`; the selection is
a total function, so a parse failure never fails the query. -/
theorem c6_generic_or_parse_failure_disables_tools
    (hasToolSupport : Bool) (parse : String → Option (List String))
    (toolDefs : List ToolDef) (intent : String)
    (h : intent = "Generic" ∨ parse intent = Option.none) :
    computeToolSelection hasToolSupport parse toolDefs intent =
      (Option.none, "none") := by
  by_cases hc : intent = "Generic" ∨ hasToolSupport = false
  · simp [computeToolSelection, hc]
  · have hparse : parse intent = Option.none := by
      rcases h with h | h
      · exact absurd (Or.inl h) hc
      · exact h
    simp [computeToolSelection, hc, hparse]

/-- Witness for C6: the malformed triage fragment `"[tool1"` fails to parse,
and the completion call is issued with no tools and `tool_choice="none"`. -/
theorem c6_generic_or_parse_failure_disables_tools_witness :
    parseJsonStringArray "[tool1" = Option.none ∧
    computeToolSelection true parseJsonStringArray
      [⟨"tool1", "first tool"⟩] "[tool1" = (Option.none, "none") :=
  ⟨by decide,
   c6_generic_or_parse_failure_disables_tools true parseJsonStringArray
     [⟨"tool1", "first tool"⟩] "[tool1" (Or.inr (by decide))⟩

theorem isPrefixOf_append (p t : List Char) : p.isPrefixOf (p ++ t) = true := by
  induction p with
  | nil => simp [List.isPrefixOf]
  | cons c cs ih => simp [List.isPrefixOf, ih]

/-- **C7**: when one tool invocation in a model turn fails, the loop appends
a tool-role message whose content is `"Error: "` followed by the exception
text to the conversation, records an inline bracketed error annotation, and
continues with the remaining tool calls of the turn from that updated state
instead of aborting. -/
theorem c7_tool_error_recorded_and_loop_continues
    (respContent : Option String) (respToolCalls : List LlmToolCall)
    (callTool : LlmToolCall → Except String String)
    (followUp : List Message → String) (st : ExecState)
    (bad : LlmToolCall) (rest : List LlmToolCall) (e : String)
    (hbad : callTool bad = .error e) :
    processToolCalls respContent respToolCalls callTool followUp st
        (bad :: rest) =
      processToolCalls respContent respToolCalls callTool followUp
        { messages := st.messages ++ [.tool bad.id ("Error: " ++ e)]
          finalText := st.finalText ++
            ["[Error executing tool " ++ bad.fname ++ ": " ++ e ++ "]"] }
        rest ∧
    strStartsWith ("Error: " ++ e) "Error: " = true := by
  constructor
  · simp [processToolCalls, processToolCall, hbad]
  · unfold strStartsWith
    rw [String.data_append]
    exact isPrefixOf_append _ _

/-- Witness for C7: a failing first call (`err1`) followed by a succeeding
second call; the loop processes the second call from the error-extended
state. -/
theorem c7_tool_error_recorded_and_loop_continues_witness :
    processToolCalls (some "c") [] (fun tc => if tc.id = "1" then
          .error "err1" else .ok "ok2") (fun _ => "f")
        ⟨[.user "q"], ["c"]⟩ [⟨"1", "t1", "\x7b\x7d"⟩, ⟨"2", "t2", "\x7b\x7d"⟩] =
      processToolCalls (some "c") [] (fun tc => if tc.id = "1" then
          .error "err1" else .ok "ok2") (fun _ => "f")
        { messages := [.user "q"] ++ [.tool "1" ("Error: " ++ "err1")]
          finalText := ["c"] ++
            ["[Error executing tool " ++ "t1" ++ ": " ++ "err1" ++ "]"] }
        [⟨"2", "t2", "\x7b\x7d"⟩] ∧
    strStartsWith ("Error: " ++ "err1") "Error: " = true :=
  c7_tool_error_recorded_and_loop_continues (some "c") []
    (fun tc => if tc.id = "1" then .error "err1" else .ok "ok2") (fun _ => "f")
    ⟨[.user "q"], ["c"]⟩ ⟨"1", "t1", "\x7b\x7d"⟩ [⟨"2", "t2", "\x7b\x7d"⟩] "err1" (by simp)

/-! ## The tag catalog round-trip (claim C5) -/

theorem lookupA_isSome_iff {α : Type} (d : List (String × α)) (k : String) :
    (lookupA d k).isSome ↔ k ∈ d.map Prod.fst := by
  induction d with
  | nil => simp [lookupA]
  | cons kv rest ih =>
      by_cases h : kv.1 = k <;> simp [lookupA, h, ih]
      exact fun he => absurd he.symm h

theorem lookupA_mem {α : Type} {d : List (String × α)} {k : String} {v : α}
    (h : lookupA d k = some v) : (k, v) ∈ d := by
  induction d with
  | nil => simp [lookupA] at h
  | cons kv rest ih =>
      by_cases hk : kv.1 = k
      · simp only [lookupA, if_pos hk, Option.some.injEq] at h
        have : kv = (k, v) := by
          cases kv
          simp only at hk h
          rw [hk, h]
        rw [← this]
        exact List.mem_cons_self _ _
      · simp only [lookupA, if_neg hk] at h
        exact List.mem_cons_of_mem _ (ih h)

theorem lookupA_of_mem_nodup {α : Type} {d : List (String × α)}
    (hnd : (d.map Prod.fst).Nodup) {k : String} {v : α} (h : (k, v) ∈ d) :
    lookupA d k = some v := by
  induction d with
  | nil => simp at h
  | cons kv rest ih =>
      have hnd' := List.nodup_cons.mp
        (by simpa only [List.map_cons] using hnd)
      rcases List.mem_cons.mp h with h1 | h1
      · rw [← h1]
        simp [lookupA]
      · have hk : kv.1 ≠ k := by
          intro he
          exact hnd'.1 (he ▸ List.mem_map_of_mem Prod.fst h1)
        simp only [lookupA, if_neg hk]
        exact ih hnd'.2 h1

theorem dictInsert_mem_sub {α : Type} (d : List (String × α)) (k : String)
    (v : α) : ∀ kv ∈ dictInsert d k v, kv = (k, v) ∨ kv ∈ d := by
  induction d with
  | nil => simp [dictInsert]
  | cons e rest ih =>
      intro kv hkv
      by_cases h : e.1 = k
      · simp only [dictInsert, if_pos h] at hkv
        rcases List.mem_cons.mp hkv with h1 | h1
        · left
          rw [h1, ← h]
        · right
          exact List.mem_cons_of_mem _ h1
      · simp only [dictInsert, if_neg h] at hkv
        rcases List.mem_cons.mp hkv with h1 | h1
        · right
          rw [h1]
          exact List.mem_cons_self _ _
        · rcases ih kv h1 with h2 | h2
          · exact Or.inl h2
          · exact Or.inr (List.mem_cons_of_mem _ h2)

theorem dictInsert_keys_nodup {α : Type} (d : List (String × α)) (k : String)
    (v : α) (h : (d.map Prod.fst).Nodup) :
    ((dictInsert d k v).map Prod.fst).Nodup := by
  induction d with
  | nil => simp [dictInsert]
  | cons e rest ih =>
      have h' := List.nodup_cons.mp (by simpa only [List.map_cons] using h)
      by_cases he : e.1 = k
      · simp only [dictInsert, if_pos he, List.map_cons]
        simpa only [List.map_cons] using h
      · simp only [dictInsert, if_neg he, List.map_cons, List.nodup_cons]
        constructor
        · intro hmem
          obtain ⟨kv, hkv, heq⟩ := List.mem_map.mp hmem
          rcases dictInsert_keys_sub rest k v kv hkv with h1 | h1
          · exact he (heq.symm.trans h1)
          · exact h'.1 (heq ▸ h1)
        · exact ih h'.2

theorem appendTool_keys (d : List (String × TagEntry)) (tag : String)
    (ti : ToolInfo) : (appendTool d tag ti).map Prod.fst = d.map Prod.fst := by
  induction d with
  | nil => rfl
  | cons e rest ih =>
      by_cases h : e.1 = tag <;> simp [appendTool, h] at ih ⊢ <;> exact ih

theorem appendTool_lookup (d : List (String × TagEntry)) (tag : String)
    (ti : ToolInfo) (T : String) :
    lookupA (appendTool d tag ti) T =
      if tag = T then
        (lookupA d T).map (fun e => ⟨e.description, e.tools ++ [ti]⟩)
      else lookupA d T := by
  induction d with
  | nil => by_cases h : tag = T <;> simp [appendTool, lookupA, h]
  | cons e rest ih =>
      have hunf : appendTool (e :: rest) tag ti =
          (if e.1 = tag then
            ((e.1 : String), (⟨e.2.description, e.2.tools ++ [ti]⟩ : TagEntry))
          else e) :: appendTool rest tag ti := rfl
      rw [hunf]
      by_cases h1 : e.1 = tag
      · rw [if_pos h1]
        by_cases h2 : tag = T
        · have he : e.1 = T := h1.trans h2
          rw [if_pos h2]
          show (if e.1 = T then _ else _) = _
          rw [if_pos he]
          show _ = (if e.1 = T then some e.2 else lookupA rest T).map _
          rw [if_pos he]
          rfl
        · have he : e.1 ≠ T := fun hc => h2 (h1.symm.trans hc)
          rw [if_neg h2]
          show (if e.1 = T then _ else lookupA (appendTool rest tag ti) T) =
            (if e.1 = T then some e.2 else lookupA rest T)
          rw [if_neg he, if_neg he, ih, if_neg h2]
      · rw [if_neg h1]
        by_cases h2 : e.1 = T
        · have htT : tag ≠ T := fun hc => h1 (h2.trans hc.symm)
          rw [if_neg htT]
          show (if e.1 = T then some e.2 else _) =
            (if e.1 = T then some e.2 else lookupA rest T)
          rw [if_pos h2, if_pos h2]
        · by_cases h3 : tag = T
          · rw [if_pos h3]
            show (if e.1 = T then some e.2 else
                lookupA (appendTool rest tag ti) T) =
              ((if e.1 = T then some e.2 else lookupA rest T).map _)
            rw [if_neg h2, if_neg h2, ih, if_pos h3]
          · rw [if_neg h3]
            show (if e.1 = T then some e.2 else
                lookupA (appendTool rest tag ti) T) =
              (if e.1 = T then some e.2 else lookupA rest T)
            rw [if_neg h2, if_neg h2, ih, if_neg h3]

/-- The tag loop of one operation appends its `tool_info` to the bucket of
`T` once per occurrence of `T` in the operation's tag list. -/
theorem tagFold_lookup (ti : ToolInfo) :
    ∀ (tags : List String) (d : List (String × TagEntry)) (T : String)
      (e : TagEntry), lookupA d T = some e →
      lookupA (tags.foldl (tagStep ti) d) T =
        some ⟨e.description, e.tools ++ List.replicate (tags.count T) ti⟩ := by
  intro tags
  induction tags with
  | nil =>
      intro d T e h
      simpa using h
  | cons t rest ih =>
      intro d T e h
      show lookupA (rest.foldl (tagStep ti) (tagStep ti d t)) T = _
      by_cases ht : t = T
      · subst ht
        have hstep : lookupA (tagStep ti d t) t =
            some ⟨e.description, e.tools ++ [ti]⟩ := by
          unfold tagStep
          rw [if_pos (by simp [h]), appendTool_lookup, if_pos rfl, h]
          rfl
        rw [ih (tagStep ti d t) t _ hstep]
        have hc : (t :: rest).count t = rest.count t + 1 := by
          simp [List.count_cons]
        rw [hc]
        simp [List.replicate_succ, List.append_assoc]
      · have hstep : lookupA (tagStep ti d t) T = some e := by
          unfold tagStep
          by_cases hs : (lookupA d t).isSome
          · rw [if_pos hs, appendTool_lookup, if_neg ht]
            exact h
          · rw [if_neg hs]
            exact h
        rw [ih _ T e hstep]
        have hc : (t :: rest).count T = rest.count T := by
          simp [List.count_cons, ht]
        rw [hc]

theorem regOp_eq_some {pmo : String × String × Operation} {oid : String}
    {op : Operation} (h : regOp pmo = some (oid, op)) :
    op = pmo.2.2 ∧ pmo.2.2.operationId = some oid ∧
      strToLower pmo.2.1 ∈ validMethods := by
  unfold regOp at h
  by_cases hv : strToLower pmo.2.1 ∈ validMethods
  · rw [if_pos hv] at h
    rcases ho : pmo.2.2.operationId with _ | o
    · rw [ho] at h
      simp at h
    · rw [ho] at h
      simp only [Option.some.injEq, Prod.mk.injEq] at h
      exact ⟨h.2.symm, congrArg some h.1, hv⟩
  · rw [if_neg hv] at h
    simp at h

theorem popStep_lookup (d : List (String × TagEntry))
    (pmo : String × String × Operation) (T : String) (e : TagEntry)
    (h : lookupA d T = some e) :
    lookupA (popStep d pmo) T =
      some ⟨e.description, e.tools ++ opContrib T pmo⟩ := by
  unfold popStep opContrib regOp
  by_cases hv : strToLower pmo.2.1 ∈ validMethods
  · rw [if_pos hv, if_pos hv]
    rcases ho : pmo.2.2.operationId with _ | oid
    · simpa using h
    · exact tagFold_lookup _ pmo.2.2.tags d T e h
  · rw [if_neg hv, if_neg hv]
    simpa using h

/-- The whole population loop, bucket by bucket. -/
theorem popFold_lookup :
    ∀ (l : List (String × String × Operation))
      (d : List (String × TagEntry)) (T : String) (e : TagEntry),
      lookupA d T = some e →
      lookupA (l.foldl popStep d) T =
        some ⟨e.description, e.tools ++ l.flatMap (fun pmo => opContrib T pmo)⟩ := by
  intro l
  induction l with
  | nil =>
      intro d T e h
      simpa using h
  | cons pmo rest ih =>
      intro d T e h
      show lookupA (rest.foldl popStep (popStep d pmo)) T = _
      rw [ih (popStep d pmo) T _ (popStep_lookup d pmo T e h)]
      simp [List.append_assoc]

theorem countP_replicate (p : ToolInfo → Bool) (n : Nat) (a : ToolInfo) :
    (List.replicate n a).countP p = if p a then n else 0 := by
  induction n with
  | zero => simp
  | succ n ih =>
      rw [List.replicate_succ, List.countP_cons]
      by_cases h : p a <;> simp [h, ih]

theorem countP_opContrib (T name : String)
    (pmo : String × String × Operation) :
    (opContrib T pmo).countP (fun ti => ti.name == name) =
      (match regOp pmo with
       | some (oid, op) => if oid = name then op.tags.count T else 0
       | Option.none => 0) := by
  unfold opContrib
  rcases h : regOp pmo with _ | ⟨oid, op⟩
  · simp
  · rw [countP_replicate]
    by_cases he : oid = name <;> simp [he]

/-- The population loop puts the registered tool of name `name` into the
bucket of `T` exactly once when that operation declares `T` (given unique
registered names and duplicate-free tag lists), and never otherwise. -/
theorem countP_flatMap_contrib (T name : String) :
    ∀ l : List (String × String × Operation),
      ((l.filterMap regOp).map Prod.fst).Nodup →
      (∀ pmo ∈ l, pmo.2.2.tags.Nodup) →
      ((l.flatMap (fun pmo => opContrib T pmo)).countP
          (fun ti => ti.name == name)) =
        if ∃ op ∈ l.filterMap regOp, op.1 = name ∧ T ∈ op.2.tags then 1
        else 0 := by
  intro l
  induction l with
  | nil => intro _ _; simp
  | cons pmo rest ih =>
      intro hnd htags
      have htags' : ∀ p ∈ rest, p.2.2.tags.Nodup :=
        fun p hp => htags p (List.mem_cons_of_mem _ hp)
      rw [List.flatMap_cons, List.countP_append, countP_opContrib]
      rcases hre : regOp pmo with _ | ⟨oid, op⟩
      · simp only [hre]
        have hfm : (pmo :: rest).filterMap regOp = rest.filterMap regOp := by
          rw [List.filterMap_cons, hre]
        rw [hfm] at hnd
        rw [hfm, ih hnd htags']
        simp
      · have hfm : (pmo :: rest).filterMap regOp =
            (oid, op) :: rest.filterMap regOp := by
          rw [List.filterMap_cons, hre]
        rw [hfm] at hnd
        rw [hfm]
        have hnd2 := List.nodup_cons.mp
          (by simpa only [List.map_cons] using hnd)
        simp only [hre]
        by_cases he : oid = name
        · rw [if_pos he]
          have hex : ¬ ∃ p ∈ rest.filterMap regOp,
              p.1 = name ∧ T ∈ p.2.tags := by
            rintro ⟨p, hp, hp1, _⟩
            apply hnd2.1
            rw [he, ← hp1]
            exact List.mem_map_of_mem Prod.fst hp
          rw [ih hnd2.2 htags', if_neg hex, Nat.add_zero]
          have hop := regOp_eq_some hre
          have htnd : op.tags.Nodup := by
            rw [hop.1]
            exact htags pmo (List.mem_cons_self _ _)
          by_cases hT : T ∈ op.tags
          · rw [if_pos ⟨(oid, op), List.mem_cons_self _ _, he, hT⟩]
            exact List.nodup_iff_count_eq_one.mp htnd T hT
          · rw [if_neg ?_]
            · exact List.count_eq_zero.mpr hT
            · rintro ⟨p, hp, hp1, hp2⟩
              rcases List.mem_cons.mp hp with h1 | h1
              · rw [h1] at hp2
                exact hT hp2
              · exact hex ⟨p, h1, hp1, hp2⟩
        · rw [if_neg he, ih hnd2.2 htags', Nat.zero_add]
          have hiff : (∃ p ∈ (oid, op) :: rest.filterMap regOp,
              p.1 = name ∧ T ∈ p.2.tags) ↔
              (∃ p ∈ rest.filterMap regOp, p.1 = name ∧ T ∈ p.2.tags) := by
            constructor
            · rintro ⟨p, hp, h1, h2⟩
              rcases List.mem_cons.mp hp with hh | hh
              · exfalso
                apply he
                rw [← h1, hh]
              · exact ⟨p, hh, h1, h2⟩
            · rintro ⟨p, hp, h1, h2⟩
              exact ⟨p, List.mem_cons_of_mem _ hp, h1, h2⟩
          rw [if_congr hiff rfl rfl]

theorem initTagsFromSpec_inv (ts : List (String × String)) :
    InitInv (initTagsFromSpec ts) := by
  suffices h : ∀ d : List (String × TagEntry), InitInv d →
      InitInv (ts.foldl (fun d nd => dictInsert d nd.1 ⟨nd.2, []⟩) d) by
    exact h [] ⟨by simp, by simp⟩
  induction ts with
  | nil => intro d hd; exact hd
  | cons nd rest ih =>
      intro d hd
      apply ih
      refine ⟨dictInsert_keys_nodup d nd.1 _ hd.1, ?_⟩
      intro kv hkv
      rcases dictInsert_mem_sub d nd.1 _ kv hkv with h1 | h1
      · rw [h1]
      · exact hd.2 kv h1

theorem newTagStep_inv (d : List (String × TagEntry)) (tag : String)
    (h : InitInv d) : InitInv (newTagStep d tag) := by
  unfold newTagStep
  by_cases hs : (lookupA d tag).isSome
  · rw [if_pos hs]
    exact h
  · rw [if_neg hs]
    have hnm : tag ∉ d.map Prod.fst :=
      fun hm => hs ((lookupA_isSome_iff d tag).mpr hm)
    constructor
    · rw [List.map_append]
      simp [List.nodup_append, h.1, hnm]
    · intro kv hkv
      rcases List.mem_append.mp hkv with h1 | h1
      · exact h.2 kv h1
      · simp at h1
        rw [h1]

theorem tagsFoldNew_inv (tags : List String) :
    ∀ d : List (String × TagEntry), InitInv d →
      InitInv (tags.foldl newTagStep d) := by
  induction tags with
  | nil => intro d hd; exact hd
  | cons t rest ih => intro d hd; exact ih _ (newTagStep_inv d t hd)

theorem initTagsFromOps_inv (spec : ResolvedSpec) :
    InitInv (initTagsFromOps spec) := by
  unfold initTagsFromOps
  suffices h : ∀ (l : List (String × String × Operation))
      (d : List (String × TagEntry)), InitInv d →
      InitInv (l.foldl initStep d) by
    exact h (flatOps spec) [] ⟨by simp, by simp⟩
  intro l
  induction l with
  | nil => intro d hd; exact hd
  | cons pmo rest ih =>
      intro d hd
      apply ih
      unfold initStep
      by_cases hv : strToLower pmo.2.1 ∈ validMethods
      · rw [if_pos hv]
        exact tagsFoldNew_inv _ d hd
      · rw [if_neg hv]
        exact hd

/-! ### The population loop does not change the bucket keys -/

theorem tagStep_keys (ti : ToolInfo) (d : List (String × TagEntry))
    (tag : String) : (tagStep ti d tag).map Prod.fst = d.map Prod.fst := by
  unfold tagStep
  by_cases hs : (lookupA d tag).isSome
  · rw [if_pos hs]
    exact appendTool_keys d tag ti
  · rw [if_neg hs]

theorem tagsFoldPop_keys (ti : ToolInfo) (tags : List String) :
    ∀ d : List (String × TagEntry),
      ((tags.foldl (tagStep ti) d).map Prod.fst) = d.map Prod.fst := by
  induction tags with
  | nil => intro d; rfl
  | cons t rest ih =>
      intro d
      show ((rest.foldl (tagStep ti) (tagStep ti d t)).map Prod.fst) = _
      rw [ih, tagStep_keys]

theorem popStep_keys (d : List (String × TagEntry))
    (pmo : String × String × Operation) :
    (popStep d pmo).map Prod.fst = d.map Prod.fst := by
  unfold popStep
  by_cases hv : strToLower pmo.2.1 ∈ validMethods
  · rw [if_pos hv]
    rcases ho : pmo.2.2.operationId with _ | oid
    · rfl
    · exact tagsFoldPop_keys _ _ d
  · rw [if_neg hv]

theorem popFold_keys (l : List (String × String × Operation)) :
    ∀ d : List (String × TagEntry),
      ((l.foldl popStep d).map Prod.fst) = d.map Prod.fst := by
  induction l with
  | nil => intro d; rfl
  | cons pmo rest ih =>
      intro d
      show ((rest.foldl popStep (popStep d pmo)).map Prod.fst) = _
      rw [ih, popStep_keys]

/-- **C5 (amended)**: in the catalog built by `list_tags`, each bucket `T`
contains a registered tool name exactly once when the uniquely-named
registered operation declares `T`, and never otherwise — provided registered
operation names are unique (the spec invariant) and tag lists are
duplicate-free.  Buckets exist only for the spec's top-level tags (or, when
none are declared, for the tags synthesized from operations), so a declared
tag absent from the buckets silently drops the tool. -/
theorem c5_catalog_membership_counts (spec : ResolvedSpec)
    (hids : ((registeredOps spec).map Prod.fst).Nodup)
    (htags : ∀ pmo ∈ flatOps spec, pmo.2.2.tags.Nodup) :
    ∀ (T : String) (entry : TagEntry), (T, entry) ∈ list_tags spec →
      ∀ name : String,
        entry.tools.countP (fun ti => ti.name == name) =
          if ∃ op ∈ registeredOps spec, op.1 = name ∧ T ∈ op.2.tags then 1
          else 0 := by
  intro T entry hmem name
  set d1 := if (initTagsFromSpec spec.tags).isEmpty then initTagsFromOps spec
    else initTagsFromSpec spec.tags with hd1
  have hinv : InitInv d1 := by
    rw [hd1]
    by_cases h0 : (initTagsFromSpec spec.tags).isEmpty
    · rw [if_pos h0]
      exact initTagsFromOps_inv spec
    · rw [if_neg h0]
      exact initTagsFromSpec_inv spec.tags
  have hlt : list_tags spec = (flatOps spec).foldl popStep d1 := rfl
  have hkeys : (list_tags spec).map Prod.fst = d1.map Prod.fst := by
    rw [hlt]
    exact popFold_keys (flatOps spec) d1
  have hcatnd : ((list_tags spec).map Prod.fst).Nodup := by
    rw [hkeys]
    exact hinv.1
  have hlook : lookupA (list_tags spec) T = some entry :=
    lookupA_of_mem_nodup hcatnd hmem
  have hTd1 : T ∈ d1.map Prod.fst := by
    rw [← hkeys]
    exact List.mem_map_of_mem Prod.fst hmem
  obtain ⟨e0, he0⟩ := Option.isSome_iff_exists.mp
    ((lookupA_isSome_iff d1 T).mpr hTd1)
  have he0tools : e0.tools = [] := hinv.2 (T, e0) (lookupA_mem he0)
  have hfull := popFold_lookup (flatOps spec) d1 T e0 he0
  rw [hlt] at hlook
  rw [hlook] at hfull
  have hentry : entry = ⟨e0.description,
      e0.tools ++ (flatOps spec).flatMap (fun pmo => opContrib T pmo)⟩ :=
    Option.some.inj hfull
  rw [hentry]
  show (e0.tools ++ _).countP _ = _
  rw [he0tools, List.nil_append]
  exact countP_flatMap_contrib T name (flatOps spec) hids htags

/-- Witness for the amended C5: one GET operation `t1` tagged `A` in a spec
with no top-level tags; the synthesized bucket `A` lists `t1` exactly
once. -/
theorem c5_catalog_membership_counts_witness :
    ((⟨"Operations tagged with A", [⟨"t1", "GET", "s"⟩]⟩ : TagEntry)).tools.countP
        (fun ti => ti.name == "t1") =
      if ∃ op ∈ registeredOps
          ⟨[], [("/x", [("get", ⟨some "t1", ["A"], "s"⟩)])]⟩,
          op.1 = "t1" ∧ "A" ∈ op.2.tags then 1 else 0 :=
  c5_catalog_membership_counts
    ⟨[], [("/x", [("get", ⟨some "t1", ["A"], "s"⟩)])]⟩ (by decide) (by decide)
    "A" ⟨"Operations tagged with A", [⟨"t1", "GET", "s"⟩]⟩ (by decide) "t1"

/-- **C5 counterexample**: with a top-level tag `A` and one registered
operation `t1` declaring only tag `B`, the catalog has just the empty bucket
`A`: the registered tool `t1` appears under *no* tag, although the claim
requires it once under its declared tag `B`. -/
theorem c5_counterexample :
    (registeredOps
        ⟨[("A", "grp")], [("/x", [("get", ⟨some "t1", ["B"], "s"⟩)])]⟩).map
      Prod.fst = ["t1"] ∧
    ("B" ∈ (⟨some "t1", ["B"], "s"⟩ : Operation).tags) ∧
    list_tags ⟨[("A", "grp")], [("/x", [("get", ⟨some "t1", ["B"], "s"⟩)])]⟩ =
      [("A", ⟨"grp", []⟩)] := by
  refine ⟨by decide, by decide, by decide⟩

end CrawlabMCP

